import Mathlib

/-!
Shallow embedding of the `fastq-fix-i5` tool (`src/main.rs`).

Buffers are modelled as `List Nat` of byte values; mutation of a buffer in
place becomes a function returning the new buffer contents.  The relevant
ASCII codes: `@` = 64, `\n` = 10, `:` = 58, `+` = 43, `A` = 65, `C` = 67,
`G` = 71, `T` = 84, `N` = 78, `a` = 97, `c` = 99, `g` = 103, `t` = 116,
`n` = 110.
-/

/-- Embedding of `complement_base` from `src/main.rs`: complement of a DNA base
(A,C,G,T,N in both cases), any other byte unchanged. -/
def complement_base (b : Nat) : Nat :=
  match b with
  | 65 => 84
  | 67 => 71
  | 71 => 67
  | 84 => 65
  | 78 => 78
  | 97 => 116
  | 99 => 103
  | 103 => 99
  | 116 => 97
  | 110 => 110
  | _ => b

/-- The two-pointer loop of `reverse_complement_in_place`, acting on the
index range `[i, j)` of `buf`.  Each step decrements `j`, complements the
bytes at `i` and at the new `j`, writes them crosswise, and increments `i`,
exactly as the `while i < j` loop in the source. -/
def rcLoop (buf : List Nat) (i j : Nat) : List Nat :=
  match j with
  | 0 => buf
  | j' + 1 =>
    if i < j' + 1 then
      rcLoop ((buf.set i (complement_base (buf.getD j' 0))).set j'
        (complement_base (buf.getD i 0))) (i + 1) j'
    else buf

/-- Embedding of `reverse_complement_in_place` from `src/main.rs`: reverse-complement a
byte buffer with the two-pointer loop starting at `i = 0`, `j = buf.len()`. -/
def reverse_complement_in_place (buf : List Nat) : List Nat :=
  rcLoop buf 0 buf.length

/-- Model of the `memchr` crate's `memchr`: index of the first occurrence of
byte `b` in the slice, if any. -/
def memchr (b : Nat) : List Nat → Option Nat
  | [] => none
  | x :: xs => if x = b then some 0 else (memchr b xs).map (· + 1)

/-- Model of the `memchr` crate's `memrchr`: index of the last occurrence of
byte `b` in the slice, if any. -/
def memrchr (b : Nat) : List Nat → Option Nat
  | [] => none
  | x :: xs =>
    match memrchr b xs with
    | some i => some (i + 1)
    | none => if x = b then some 0 else none

/-- The error kinds produced by the tool (the distinct `io::Error` values
constructed in `src/main.rs`). -/
inductive IOErr where
  | missingMarker
  | missingTerminator
  | missingColon
  | missingPlus
  | truncatedRecord
  deriving DecidableEq, Repr

/-- Embedding of `rewrite_header_i5` from `src/main.rs`.  The Rust function mutates the
buffer through `&mut [u8]` and returns `io::Result<()>`; here it returns the
result paired with the final buffer contents, so that the buffer state on
every path (including the early error returns, which leave it untouched) is
explicit. -/
def rewrite_header_i5 (header : List Nat) : Except IOErr Unit × List Nat :=
  if header.length = 0 ∨ header.getD 0 0 ≠ 64 then
    (Except.error IOErr.missingMarker, header)
  else if header.getLast? ≠ some 10 then
    (Except.error IOErr.missingTerminator, header)
  else
    match memrchr 58 header with
    | none => (Except.error IOErr.missingColon, header)
    | some colon_index =>
      let after_colon_index := colon_index + 1
      match memchr 43 (header.drop after_colon_index) with
      | none => (Except.error IOErr.missingPlus, header)
      | some relative_plus_index =>
        let after_plus_index := after_colon_index + relative_plus_index + 1
        let stop_h5_index := header.length - 1
        let i5 := (header.drop after_plus_index).take
          (stop_h5_index - after_plus_index)
        (Except.ok (),
          header.take after_plus_index ++ reverse_complement_in_place i5 ++
            header.drop stop_h5_index)

/-- The index one past the `+` delimiter located by `rewrite_header_i5`, i.e.
the start of the i5 barcode field (`after_plus_index` in the source);
`0` when the parse does not reach that point. -/
def fieldStart (header : List Nat) : Nat :=
  match memrchr 58 header with
  | none => 0
  | some colon_index =>
    match memchr 43 (header.drop (colon_index + 1)) with
    | none => 0
    | some relative_plus_index => colon_index + 1 + relative_plus_index + 1

/-- The loop body of `read_line` from `src/main.rs`.  The buffered input
stream is modelled as a list of chunks: `fill_buf` returns the head chunk
(an empty head chunk, or no chunk at all, models end of stream), and
`consume` drops the consumed bytes from it — a partly consumed chunk is
pushed back.  `line` is the accumulator (the caller has already cleared it)
and `total` the running count of consumed bytes; the result is the final
line, the returned total, and the remaining stream. -/
def readLineLoop : List (List Nat) → List Nat → Nat →
    List Nat × Nat × List (List Nat)
  | [], line, total => (line, total, [])
  | c :: rest, line, total =>
    if c.isEmpty then (line, total, c :: rest)
    else
      match memchr 10 c with
      | some pos =>
        (line ++ c.take (pos + 1), total + (pos + 1),
          if (c.drop (pos + 1)).isEmpty then rest else c.drop (pos + 1) :: rest)
      | none => readLineLoop rest (line ++ c) (total + c.length)

/-- Embedding of `read_line` from `src/main.rs`: clears the reuse buffer `line`, then
accumulates bytes from the stream up to and including the first newline. -/
def read_line (chunks : List (List Nat)) (line : List Nat) :
    List Nat × Nat × List (List Nat) :=
  readLineLoop chunks (line.take 0) 0

/-- Total number of bytes remaining in the modelled input stream. -/
def bytes (chunks : List (List Nat)) : Nat := chunks.flatten.length

theorem readLineLoop_bytes (chunks : List (List Nat)) (line : List Nat)
    (total : Nat) :
    (readLineLoop chunks line total).1.length +
      bytes (readLineLoop chunks line total).2.2 =
      line.length + bytes chunks := by
  induction chunks generalizing line total with
  | nil => simp [readLineLoop, bytes]
  | cons c rest ih =>
    by_cases hc : c.isEmpty
    · have hce : c = [] := List.isEmpty_iff.mp hc
      subst hce
      simp [readLineLoop, bytes]
    · have hcf : c.isEmpty = false := by simpa using hc
      cases hm : memchr 10 c with
      | some pos =>
        have hlen : (c.take (pos + 1)).length + (c.drop (pos + 1)).length
            = c.length := by
          rw [← List.length_append, List.take_append_drop]
        by_cases hrem : (c.drop (pos + 1)).isEmpty
        · have h1 : readLineLoop (c :: rest) line total =
              (line ++ c.take (pos + 1), total + (pos + 1), rest) := by
            simp [readLineLoop, hcf, hm, hrem]
          rw [h1]
          have h2 : (c.drop (pos + 1)).length = 0 := by
            simp [List.isEmpty_iff.mp hrem]
          simp only [bytes, List.flatten_cons, List.length_append]
          omega
        · have h1 : readLineLoop (c :: rest) line total =
              (line ++ c.take (pos + 1), total + (pos + 1),
                c.drop (pos + 1) :: rest) := by
            simp [readLineLoop, hcf, hm, hrem]
          rw [h1]
          simp only [bytes, List.flatten_cons, List.length_append]
          omega
      | none =>
        have h1 : readLineLoop (c :: rest) line total =
            readLineLoop rest (line ++ c) (total + c.length) := by
          simp [readLineLoop, hcf, hm]
        rw [h1, ih]
        simp only [bytes, List.flatten_cons, List.length_append]
        omega

theorem read_line_bytes (chunks : List (List Nat)) (line : List Nat) :
    (read_line chunks line).1.length + bytes (read_line chunks line).2.2 =
      bytes chunks := by
  have := readLineLoop_bytes chunks (line.take 0) 0
  simpa [read_line] using this

theorem read_line_bytes_le (chunks : List (List Nat)) (line : List Nat) :
    bytes (read_line chunks line).2.2 ≤ bytes chunks := by
  have := read_line_bytes chunks line
  omega

theorem read_line_bytes_lt (chunks : List (List Nat)) (line : List Nat)
    (h : (read_line chunks line).1 ≠ []) :
    bytes (read_line chunks line).2.2 < bytes chunks := by
  have h1 := read_line_bytes chunks line
  have h2 : 0 < (read_line chunks line).1.length := List.length_pos.mpr h
  omega

/-- The record loop in `main` from `src/main.rs`.  Input is the modelled
stream; the result is the byte sequence written to the output buffer
(`write_all` calls, in order) paired with the loop's outcome.  Each record:
read a line — a zero-byte read here is clean end of input; rewrite it as a
header (an error aborts with nothing of this record written); write it; then
read and write three payload lines, a zero-byte read among them being a
truncated record. -/
def mainLoop (chunks : List (List Nat)) : List Nat × Except IOErr Unit :=
  if h0 : (read_line chunks []).1.isEmpty then ([], Except.ok ())
  else
    match rewrite_header_i5 (read_line chunks []).1 with
    | (Except.error e, _) => ([], Except.error e)
    | (Except.ok _, line1) =>
      let r1 := read_line (read_line chunks []).2.2 []
      if r1.1.isEmpty then (line1, Except.error IOErr.truncatedRecord)
      else
        let r2 := read_line r1.2.2 []
        if r2.1.isEmpty then
          (line1 ++ r1.1, Except.error IOErr.truncatedRecord)
        else
          let r3 := read_line r2.2.2 []
          if r3.1.isEmpty then
            (line1 ++ r1.1 ++ r2.1, Except.error IOErr.truncatedRecord)
          else
            let result := mainLoop r3.2.2
            (line1 ++ r1.1 ++ r2.1 ++ r3.1 ++ result.1, result.2)
termination_by bytes chunks
decreasing_by
  have hlt : bytes (read_line chunks []).2.2 < bytes chunks := by
    apply read_line_bytes_lt
    simpa [List.isEmpty_iff] using h0
  calc bytes (read_line (read_line (read_line (read_line chunks []).2.2
        []).2.2 []).2.2 []).2.2
      ≤ bytes (read_line (read_line (read_line chunks []).2.2 []).2.2 []).2.2 :=
        read_line_bytes_le _ _
    _ ≤ bytes (read_line (read_line chunks []).2.2 []).2.2 :=
        read_line_bytes_le _ _
    _ ≤ bytes (read_line chunks []).2.2 := read_line_bytes_le _ _
    _ < bytes chunks := hlt

/-- Declarative description of one line of a byte stream: everything up to
and including the first newline byte (the whole stream if it has none). -/
def takeLine : List Nat → List Nat
  | [] => []
  | x :: r => if x = 10 then [x] else x :: takeLine r

/-- The bytes of a stream that follow its first line. -/
def dropLine : List Nat → List Nat
  | [] => []
  | x :: r => if x = 10 then r else dropLine r

/-- Index `c` is the position of the last occurrence of `:` (byte 58) in `h`. -/
def isLastColon (h : List Nat) (c : Nat) : Prop :=
  c < h.length ∧ h.getD c 0 = 58 ∧ ∀ k < h.length, c < k → h.getD k 0 ≠ 58

instance (h : List Nat) (c : Nat) : Decidable (isLastColon h c) := by
  unfold isLastColon
  infer_instance

/-- A well-formed stream line: nonempty, terminated by a newline byte, with
no newline byte before the final position. -/
def isLine (l : List Nat) : Prop :=
  l ≠ [] ∧ l.getLast? = some 10 ∧ ∀ k < l.length - 1, l.getD k 0 ≠ 10

instance (l : List Nat) : Decidable (isLine l) := by
  unfold isLine
  infer_instance

/-- The byte stream obtained by concatenating a list of 4-line records
(header, then three payload lines). -/
def flattenRecords : List (List Nat × List Nat × List Nat × List Nat) → List Nat
  | [] => []
  | r :: rs => r.1 ++ r.2.1 ++ r.2.2.1 ++ r.2.2.2 ++ flattenRecords rs

/-- The output the tool should produce for a list of 4-line records: each
header rewritten, each payload line passed through unchanged. -/
def outRecords : List (List Nat × List Nat × List Nat × List Nat) → List Nat
  | [] => []
  | r :: rs =>
    (rewrite_header_i5 r.1).2 ++ r.2.1 ++ r.2.2.1 ++ r.2.2.2 ++ outRecords rs

/-- The run of the main loop reaches a zero-byte read in header position:
end of input at a 4-line record boundary, every header on the way rewriting
successfully and every record complete. -/
inductive CleanEOF : List (List Nat) → Prop where
  | eof : ∀ chunks, (read_line chunks []).1 = [] → CleanEOF chunks
  | step : ∀ chunks,
      (read_line chunks []).1 ≠ [] →
      (rewrite_header_i5 (read_line chunks []).1).1 = Except.ok () →
      (read_line (read_line chunks []).2.2 []).1 ≠ [] →
      (read_line (read_line (read_line chunks []).2.2 []).2.2 []).1 ≠ [] →
      (read_line (read_line (read_line (read_line chunks []).2.2 []).2.2
        []).2.2 []).1 ≠ [] →
      CleanEOF (read_line (read_line (read_line (read_line chunks []).2.2
        []).2.2 []).2.2 []).2.2 →
      CleanEOF chunks

theorem complement_base_of_ne (b : Nat)
    (hb : b ∉ [65, 67, 71, 84, 78, 97, 99, 103, 116, 110]) :
    complement_base b = b := by
  unfold complement_base
  split <;> simp_all

theorem complement_base_involution (b : Nat) :
    complement_base (complement_base b) = b := by
  by_cases hb : b ∈ [65, 67, 71, 84, 78, 97, 99, 103, 116, 110]
  · fin_cases hb <;> rfl
  · rw [complement_base_of_ne b hb, complement_base_of_ne b hb]

theorem complement_base_eq_iff (b d : Nat)
    (hd : d ∉ [65, 67, 71, 84, 78, 97, 99, 103, 116, 110]) :
    complement_base b = d ↔ b = d := by
  constructor
  · intro h
    by_cases hb : b ∈ [65, 67, 71, 84, 78, 97, 99, 103, 116, 110]
    · fin_cases hb <;> simp_all [complement_base]
    · rwa [complement_base_of_ne b hb] at h
  · intro h
    subst h
    exact complement_base_of_ne b hd

theorem getD_set_self (l : List Nat) (m : Nat) (v : Nat) (h : m < l.length) :
    (l.set m v).getD m 0 = v := by
  simp [List.getD_eq_getElem?_getD, List.getElem?_set_self', h,
    List.getElem?_eq_getElem]

theorem getD_set_ne (l : List Nat) (m k : Nat) (v : Nat) (h : m ≠ k) :
    (l.set m v).getD k 0 = l.getD k 0 := by
  simp [List.getD_eq_getElem?_getD, List.getElem?_set_ne h]

theorem rcLoop_length (j : Nat) (buf : List Nat) (i : Nat) :
    (rcLoop buf i j).length = buf.length := by
  induction j generalizing buf i with
  | zero => simp [rcLoop]
  | succ j' ih =>
    unfold rcLoop
    by_cases hij : i < j' + 1
    · simp only [hij, if_true]
      rw [ih]
      simp
    · simp [hij]

theorem rcLoop_getD (j : Nat) (buf : List Nat) (i : Nat)
    (hj : j ≤ buf.length) (k : Nat) :
    (rcLoop buf i j).getD k 0 =
      if i ≤ k ∧ k < j then complement_base (buf.getD (i + j - 1 - k) 0)
      else buf.getD k 0 := by
  induction j generalizing buf i with
  | zero =>
    simp only [rcLoop]
    have : ¬(i ≤ k ∧ k < 0) := by omega
    simp [this]
  | succ j' ih =>
    unfold rcLoop
    by_cases hij : i < j' + 1
    · simp only [hij, if_true]
      have hjlen : j' < buf.length := by omega
      have hilen : i < buf.length := by omega
      set buf₁ := (buf.set i (complement_base (buf.getD j' 0))).set j'
        (complement_base (buf.getD i 0)) with hbuf₁
      have hlen₁ : buf₁.length = buf.length := by simp [hbuf₁]
      rw [ih buf₁ (i + 1) (by omega) ]
      by_cases hk : i + 1 ≤ k ∧ k < j'
      · -- interior position: the recursive call owns it
        simp only [hk, if_true]
        have hcond : i ≤ k ∧ k < j' + 1 := by omega
        simp only [hcond, and_self, if_true]
        have hm : i + 1 + j' - 1 - k = i + (j' + 1) - 1 - k := by omega
        rw [hm]
        have hmi : i ≠ i + (j' + 1) - 1 - k := by omega
        have hmj : j' ≠ i + (j' + 1) - 1 - k := by omega
        rw [hbuf₁, getD_set_ne _ _ _ _ hmj, getD_set_ne _ _ _ _ hmi]
      · simp only [hk, if_false]
        by_cases hki : k = i
        · subst hki
          have hcond : k ≤ k ∧ k < j' + 1 := by omega
          simp only [hcond, and_self, if_true]
          by_cases hkj : k = j'
          · subst hkj
            rw [hbuf₁, getD_set_self _ _ _ (by simpa using hjlen)]
            congr 1
            congr 1
            omega
          · rw [hbuf₁, getD_set_ne _ _ _ _ (Ne.symm hkj),
              getD_set_self _ _ _ hilen]
            congr 1
            congr 1
            omega
        · by_cases hkj : k = j'
          · subst hkj
            have hcond : i ≤ k ∧ k < k + 1 := by omega
            simp only [hcond, and_self, if_true]
            rw [hbuf₁, getD_set_self _ _ _ (by simpa using hjlen)]
            congr 1
            congr 1
            omega
          · have hcond : ¬(i ≤ k ∧ k < j' + 1) := by omega
            simp only [hcond, if_false]
            rw [hbuf₁, getD_set_ne _ _ _ _ (Ne.symm hkj),
              getD_set_ne _ _ _ _ (Ne.symm hki)]
    · have hcond : ¬(i ≤ k ∧ k < j' + 1) := by omega
      simp [hij, hcond]

theorem rc_length (l : List Nat) :
    (reverse_complement_in_place l).length = l.length :=
  rcLoop_length _ _ _

theorem rc_getD (l : List Nat) (k : Nat) (hk : k < l.length) :
    (reverse_complement_in_place l).getD k 0 =
      complement_base (l.getD (l.length - 1 - k) 0) := by
  unfold reverse_complement_in_place
  rw [rcLoop_getD _ _ _ le_rfl k]
  have hcond : 0 ≤ k ∧ k < l.length := ⟨Nat.zero_le _, hk⟩
  simp only [hcond, and_self, if_true]
  congr 2
  omega

theorem getD_eq_getElem (l : List Nat) (k : Nat) (h : k < l.length) :
    l.getD k 0 = l[k] := by
  simp [List.getD_eq_getElem?_getD, List.getElem?_eq_getElem h]

theorem eq_of_length_getD (l₁ l₂ : List Nat) (hlen : l₁.length = l₂.length)
    (h : ∀ k < l₁.length, l₁.getD k 0 = l₂.getD k 0) : l₁ = l₂ := by
  apply List.ext_getElem hlen
  intro i h1 h2
  have := h i h1
  rwa [getD_eq_getElem _ _ h1, getD_eq_getElem _ _ h2] at this

theorem rc_involution (l : List Nat) :
    reverse_complement_in_place (reverse_complement_in_place l) = l := by
  apply eq_of_length_getD
  · rw [rc_length, rc_length]
  · intro k hk
    have hk1 : k < (reverse_complement_in_place l).length := by
      rwa [rc_length] at hk
    have hk2 : k < l.length := by rwa [rc_length] at hk1
    rw [rc_getD _ _ hk1, rc_length, rc_getD _ _ (by omega),
      complement_base_involution]
    congr 1
    omega

theorem memchr_none_iff (b : Nat) (l : List Nat) :
    memchr b l = none ↔ ∀ k < l.length, l.getD k 0 ≠ b := by
  induction l with
  | nil => simp [memchr]
  | cons x xs ih =>
    simp only [memchr]
    by_cases hx : x = b
    · simp only [hx, if_pos rfl]
      constructor
      · intro h; cases h
      · intro h
        exact absurd (by simpa using hx) (by simpa using h 0 (by simp))
    · simp only [if_neg hx, Option.map_eq_none']
      rw [ih]
      constructor
      · intro h k hk
        cases k with
        | zero => simpa using hx
        | succ m =>
          simp only [List.getD_cons_succ]
          exact h m (by simpa [Nat.lt_succ_iff, Nat.succ_le_iff] using hk)
      · intro h k hk
        have := h (k + 1) (by simpa using hk)
        simpa using this

theorem memchr_some_iff (b : Nat) (l : List Nat) (i : Nat) :
    memchr b l = some i ↔
      i < l.length ∧ l.getD i 0 = b ∧ ∀ k < i, l.getD k 0 ≠ b := by
  induction l generalizing i with
  | nil => simp [memchr]
  | cons x xs ih =>
    simp only [memchr]
    by_cases hx : x = b
    · simp only [hx, if_pos rfl]
      constructor
      · intro h
        obtain rfl : (0 : Nat) = i := by simpa using h
        exact ⟨by simp, by simpa using hx, by omega⟩
      · rintro ⟨hi, hgd, hmin⟩
        cases i with
        | zero => rfl
        | succ n => exact absurd (by simpa using hx) (by simpa using hmin 0 (by omega))
    · simp only [if_neg hx]
      constructor
      · intro h
        obtain ⟨j, hj, rfl⟩ : ∃ j, memchr b xs = some j ∧ j + 1 = i := by
          cases hm : memchr b xs with
          | none => rw [hm] at h; cases h
          | some j =>
            rw [hm] at h
            exact ⟨j, rfl, by simpa using h⟩
        obtain ⟨h1, h2, h3⟩ := (ih j).mp hj
        refine ⟨by simpa using h1, by simpa using h2, ?_⟩
        intro k hk
        cases k with
        | zero => simpa using hx
        | succ m =>
          simp only [List.getD_cons_succ]
          exact h3 m (by omega)
      · rintro ⟨hi, hgd, hmin⟩
        cases i with
        | zero => exact absurd (by simpa using hgd) hx
        | succ n =>
          have hxs : memchr b xs = some n := by
            refine (ih n).mpr ⟨by simpa using hi, by simpa using hgd, ?_⟩
            intro k hk
            have := hmin (k + 1) (by omega)
            simpa using this
          rw [hxs]
          rfl

theorem memrchr_some_getD (b : Nat) (l : List Nat) (i : Nat)
    (h : memrchr b l = some i) : i < l.length ∧ l.getD i 0 = b := by
  induction l generalizing i with
  | nil => cases h
  | cons x xs ih =>
    simp only [memrchr] at h
    cases hm : memrchr b xs with
    | some j =>
      rw [hm] at h
      obtain rfl : j + 1 = i := by simpa using h
      obtain ⟨h1, h2⟩ := ih j hm
      exact ⟨by simpa using h1, by simpa using h2⟩
    | none =>
      rw [hm] at h
      by_cases hx : x = b
      · rw [if_pos hx] at h
        obtain rfl : (0 : Nat) = i := by simpa using h
        exact ⟨by simp, by simpa using hx⟩
      · rw [if_neg hx] at h
        cases h

theorem memrchr_none_iff (b : Nat) (l : List Nat) :
    memrchr b l = none ↔ ∀ k < l.length, l.getD k 0 ≠ b := by
  induction l with
  | nil => simp [memrchr]
  | cons x xs ih =>
    simp only [memrchr]
    cases hm : memrchr b xs with
    | some j =>
      constructor
      · intro h; cases h
      · intro h
        exfalso
        obtain ⟨h1, h2⟩ := memrchr_some_getD b xs j hm
        have hlt : j + 1 < (x :: xs).length := by simpa using h1
        have := h (j + 1) hlt
        simp only [List.getD_cons_succ] at this
        exact this h2
    | none =>
      by_cases hx : x = b
      · simp only [hx, if_pos rfl]
        constructor
        · intro h; cases h
        · intro h
          exact absurd (by simpa using hx) (by simpa using h 0 (by simp))
      · simp only [if_neg hx]
        rw [ih] at hm
        constructor
        · intro _ k hk
          cases k with
          | zero => simpa using hx
          | succ m =>
            simp only [List.getD_cons_succ]
            exact hm m (by simpa using hk)
        · intro _
          trivial

theorem memrchr_some_iff (b : Nat) (l : List Nat) (i : Nat) :
    memrchr b l = some i ↔
      i < l.length ∧ l.getD i 0 = b ∧
        ∀ k < l.length, i < k → l.getD k 0 ≠ b := by
  induction l generalizing i with
  | nil => simp [memrchr]
  | cons x xs ih =>
    simp only [memrchr]
    cases hm : memrchr b xs with
    | some j =>
      obtain ⟨hj1, hj2, hj3⟩ := (ih j).mp hm
      constructor
      · intro h
        obtain rfl : j + 1 = i := by simpa using h
        refine ⟨by simpa using hj1, by simpa using hj2, ?_⟩
        intro k hk hjk
        cases k with
        | zero => omega
        | succ m =>
          simp only [List.getD_cons_succ]
          exact hj3 m (by simpa using hk) (by omega)
      · rintro ⟨hi, hgd, hmax⟩
        cases i with
        | zero =>
          exfalso
          exact hmax (j + 1) (by simpa using hj1) (by omega) (by simpa using hj2)
        | succ n =>
          have : memrchr b xs = some n := by
            refine (ih n).mpr ⟨by simpa using hi, by simpa using hgd, ?_⟩
            intro k hk hnk
            have := hmax (k + 1) (by simpa using hk) (by omega)
            simpa using this
          rw [hm] at this
          simpa using this
    | none =>
      rw [memrchr_none_iff] at hm
      by_cases hx : x = b
      · simp only [hx, if_pos rfl]
        constructor
        · intro h
          obtain rfl : (0 : Nat) = i := by simpa using h
          refine ⟨by simp, by simpa using hx, ?_⟩
          intro k hk h0k
          cases k with
          | zero => omega
          | succ m =>
            simp only [List.getD_cons_succ]
            exact hm m (by simpa using hk)
        · rintro ⟨hi, hgd, hmax⟩
          cases i with
          | zero => rfl
          | succ n =>
            exfalso
            exact hm n (by simpa using hi) (by simpa using hgd)
      · simp only [if_neg hx]
        constructor
        · intro h; cases h
        · rintro ⟨hi, hgd, hmax⟩
          exfalso
          cases i with
          | zero => exact hx (by simpa using hgd)
          | succ n =>
            exact hm n (by simpa using hi) (by simpa using hgd)

theorem getD_drop (l : List Nat) (n k : Nat) :
    (l.drop n).getD k 0 = l.getD (n + k) 0 := by
  simp [List.getD_eq_getElem?_getD, List.getElem?_drop]

theorem getD_take (l : List Nat) (n k : Nat) (hk : k < n) :
    (l.take n).getD k 0 = l.getD k 0 := by
  simp [List.getD_eq_getElem?_getD, List.getElem?_take_of_lt hk]

theorem getD_append_left (A B : List Nat) (k : Nat) (hk : k < A.length) :
    (A ++ B).getD k 0 = A.getD k 0 := by
  simp [List.getD_eq_getElem?_getD, List.getElem?_append, hk]

theorem getD_append_right (A B : List Nat) (k : Nat) (hk : A.length ≤ k) :
    (A ++ B).getD k 0 = B.getD (k - A.length) 0 := by
  simp [List.getD_eq_getElem?_getD, List.getElem?_append_right hk]

theorem getLast?_getD (l : List Nat) (v : Nat) (h : l.getLast? = some v) :
    l.getD (l.length - 1) 0 = v := by
  rw [List.getLast?_eq_getElem?] at h
  simp [List.getD_eq_getElem?_getD, h]

theorem getD_getLast? (l : List Nat) (hne : l ≠ [])
    (h : l.getD (l.length - 1) 0 = 10) : l.getLast? = some 10 := by
  rw [List.getLast?_eq_getElem?]
  have hlen : 0 < l.length := List.length_pos.mpr hne
  have := (getD_eq_getElem l (l.length - 1) (by omega)).symm
  rw [List.getElem?_eq_getElem (by omega)]
  rw [getD_eq_getElem l (l.length - 1) (by omega)] at h
  simp [h]

theorem rewrite_err_marker (h : List Nat)
    (hcond : h.length = 0 ∨ h.getD 0 0 ≠ 64) :
    rewrite_header_i5 h = (Except.error IOErr.missingMarker, h) := by
  unfold rewrite_header_i5
  rw [if_pos hcond]

theorem rewrite_err_terminator (h : List Nat)
    (h1 : ¬(h.length = 0 ∨ h.getD 0 0 ≠ 64)) (h2 : h.getLast? ≠ some 10) :
    rewrite_header_i5 h = (Except.error IOErr.missingTerminator, h) := by
  unfold rewrite_header_i5
  rw [if_neg h1, if_pos h2]

theorem rewrite_err_colon (h : List Nat)
    (h1 : ¬(h.length = 0 ∨ h.getD 0 0 ≠ 64)) (h2 : h.getLast? = some 10)
    (hc : memrchr 58 h = none) :
    rewrite_header_i5 h = (Except.error IOErr.missingColon, h) := by
  unfold rewrite_header_i5
  rw [if_neg h1, if_neg (not_not_intro h2)]
  simp only [hc]

theorem rewrite_err_plus (h : List Nat) (c : Nat)
    (h1 : ¬(h.length = 0 ∨ h.getD 0 0 ≠ 64)) (h2 : h.getLast? = some 10)
    (hc : memrchr 58 h = some c) (hr : memchr 43 (h.drop (c + 1)) = none) :
    rewrite_header_i5 h = (Except.error IOErr.missingPlus, h) := by
  unfold rewrite_header_i5
  rw [if_neg h1, if_neg (not_not_intro h2)]
  simp only [hc, hr]

theorem rewrite_unfold_ok (h : List Nat) (c r : Nat)
    (h1 : ¬(h.length = 0 ∨ h.getD 0 0 ≠ 64)) (h2 : h.getLast? = some 10)
    (hc : memrchr 58 h = some c) (hr : memchr 43 (h.drop (c + 1)) = some r) :
    rewrite_header_i5 h = (Except.ok (),
      h.take (c + 1 + r + 1) ++
        reverse_complement_in_place
          ((h.drop (c + 1 + r + 1)).take (h.length - 1 - (c + 1 + r + 1))) ++
        h.drop (h.length - 1)) := by
  unfold rewrite_header_i5
  rw [if_neg h1, if_neg (not_not_intro h2)]
  simp only [hc, hr]

theorem fieldStart_eq (h : List Nat) (c r : Nat)
    (hc : memrchr 58 h = some c) (hr : memchr 43 (h.drop (c + 1)) = some r) :
    fieldStart h = c + 1 + r + 1 := by
  unfold fieldStart
  simp only [hc, hr]

theorem rewrite_cases (h : List Nat) :
    (rewrite_header_i5 h).2 = h ∨ (rewrite_header_i5 h).1 = Except.ok () := by
  unfold rewrite_header_i5
  by_cases h1 : h.length = 0 ∨ h.getD 0 0 ≠ 64
  · rw [if_pos h1]; left; rfl
  · rw [if_neg h1]
    by_cases h2 : h.getLast? ≠ some 10
    · rw [if_pos h2]; left; rfl
    · rw [if_neg h2]
      cases hc : memrchr 58 h with
      | none => simp only [hc]; left; trivial
      | some c =>
        cases hr : memchr 43 (h.drop (c + 1)) with
        | none => simp only [hc, hr]; left; trivial
        | some r => simp only [hc, hr]; right; trivial

theorem rewrite_ok_conditions (h : List Nat)
    (hok : (rewrite_header_i5 h).1 = Except.ok ()) :
    ∃ c r, ¬(h.length = 0 ∨ h.getD 0 0 ≠ 64) ∧ h.getLast? = some 10 ∧
      memrchr 58 h = some c ∧ memchr 43 (h.drop (c + 1)) = some r := by
  unfold rewrite_header_i5 at hok
  by_cases h1 : h.length = 0 ∨ h.getD 0 0 ≠ 64
  · rw [if_pos h1] at hok; cases hok
  · rw [if_neg h1] at hok
    by_cases h2 : h.getLast? ≠ some 10
    · rw [if_pos h2] at hok; cases hok
    · rw [if_neg h2] at hok
      cases hc : memrchr 58 h with
      | none => simp only [hc] at hok; cases hok
      | some c =>
        simp only [hc] at hok
        cases hr : memchr 43 (h.drop (c + 1)) with
        | none => simp only [hr] at hok; cases hok
        | some r => exact ⟨c, r, h1, not_not.mp h2, rfl, hr⟩

theorem isLastColon_unique (h : List Nat) (c c' : Nat)
    (h1 : isLastColon h c) (h2 : isLastColon h c') : c = c' := by
  obtain ⟨l1, l2, l3⟩ := h1
  obtain ⟨m1, m2, m3⟩ := h2
  by_contra hne
  rcases Nat.lt_or_ge c c' with hlt | hge
  · exact l3 c' m1 hlt m2
  · exact m3 c l1 (by omega) l2

/-- C4: `complement_base` maps A↔T, C↔G, N↔N in both cases, preserving
case, and returns every other byte value unchanged.  It is a plain total
function of one byte with no error path. -/
theorem complement_base_spec :
    complement_base 65 = 84 ∧ complement_base 84 = 65 ∧
    complement_base 67 = 71 ∧ complement_base 71 = 67 ∧
    complement_base 78 = 78 ∧
    complement_base 97 = 116 ∧ complement_base 116 = 97 ∧
    complement_base 99 = 103 ∧ complement_base 103 = 99 ∧
    complement_base 110 = 110 ∧
    ∀ b : Nat, b ∉ [65, 67, 71, 84, 78, 97, 99, 103, 116, 110] →
      complement_base b = b :=
  ⟨rfl, rfl, rfl, rfl, rfl, rfl, rfl, rfl, rfl, rfl, complement_base_of_ne⟩

theorem complement_base_spec_witness : complement_base 43 = 43 :=
  complement_base_spec.2.2.2.2.2.2.2.2.2.2 43 (by decide)

/-- C3: after `reverse_complement_in_place`, the byte at each index `i`
equals `complement_base` of the original byte at index `L - 1 - i`; the
length is unchanged, and for odd `L` the middle byte is complemented in
place (not moved). -/
theorem reverse_complement_in_place_spec (buf : List Nat) :
    (reverse_complement_in_place buf).length = buf.length ∧
    (∀ i, i < buf.length → (reverse_complement_in_place buf).getD i 0 =
      complement_base (buf.getD (buf.length - 1 - i) 0)) ∧
    (∀ i, 2 * i + 1 = buf.length →
      (reverse_complement_in_place buf).getD i 0 =
        complement_base (buf.getD i 0)) := by
  refine ⟨rc_length buf, fun i hi => rc_getD buf i hi, fun i hi => ?_⟩
  rw [rc_getD buf i (by omega)]
  congr 2
  omega

theorem reverse_complement_in_place_spec_witness :
    (reverse_complement_in_place [65, 67, 84]).getD 1 0 =
      complement_base 67 := by
  have h := (reverse_complement_in_place_spec [65, 67, 84]).2.1 1 (by decide)
  exact h

/-- C6: on every failure path `rewrite_header_i5` leaves the buffer
byte-for-byte unchanged (validation and location fully precede mutation). -/
theorem rewrite_header_i5_no_partial_mutation (h : List Nat) (e : IOErr)
    (herr : (rewrite_header_i5 h).1 = Except.error e) :
    (rewrite_header_i5 h).2 = h := by
  rcases rewrite_cases h with hcase | hcase
  · exact hcase
  · rw [hcase] at herr
    cases herr

theorem rewrite_header_i5_no_partial_mutation_witness :
    (rewrite_header_i5 [64, 10]).2 = [64, 10] :=
  rewrite_header_i5_no_partial_mutation [64, 10] IOErr.missingColon rfl

/-- C5: the four validation checks of `rewrite_header_i5` run in a fixed
order with distinct errors: empty buffer or first byte not `@` gives the
missing-marker error; else a last byte other than newline gives the
missing-terminator error; else absence of `:` gives the
missing-field-delimiter error; else absence of `+` after the last `:` gives
the missing-subfield-delimiter error; and it fails in no other case. -/
theorem rewrite_header_i5_error_order (h : List Nat) :
    ((rewrite_header_i5 h).1 = Except.error IOErr.missingMarker ↔
      h = [] ∨ h.getD 0 0 ≠ 64) ∧
    ((rewrite_header_i5 h).1 = Except.error IOErr.missingTerminator ↔
      ¬(h = [] ∨ h.getD 0 0 ≠ 64) ∧ h.getLast? ≠ some 10) ∧
    ((rewrite_header_i5 h).1 = Except.error IOErr.missingColon ↔
      ¬(h = [] ∨ h.getD 0 0 ≠ 64) ∧ h.getLast? = some 10 ∧
        ∀ k < h.length, h.getD k 0 ≠ 58) ∧
    ((rewrite_header_i5 h).1 = Except.error IOErr.missingPlus ↔
      ¬(h = [] ∨ h.getD 0 0 ≠ 64) ∧ h.getLast? = some 10 ∧
        ∃ c, isLastColon h c ∧ ∀ k < h.length, c < k → h.getD k 0 ≠ 43) ∧
    ((rewrite_header_i5 h).1 = Except.ok () ↔
      ¬(h = [] ∨ h.getD 0 0 ≠ 64) ∧ h.getLast? = some 10 ∧
        ∃ c, isLastColon h c ∧ ∃ k, k < h.length ∧ c < k ∧ h.getD k 0 = 43) ∧
    (rewrite_header_i5 h).1 ≠ Except.error IOErr.truncatedRecord := by
  have hlen : h.length = 0 ↔ h = [] := List.length_eq_zero
  by_cases h1 : h.length = 0 ∨ h.getD 0 0 ≠ 64
  · have h1' : h = [] ∨ h.getD 0 0 ≠ 64 := by
      rcases h1 with h1 | h1
      · exact Or.inl (hlen.mp h1)
      · exact Or.inr h1
    rw [rewrite_err_marker h h1]
    exact ⟨iff_of_true rfl h1',
      iff_of_false (by simp) (fun hx => hx.1 h1'),
      iff_of_false (by simp) (fun hx => hx.1 h1'),
      iff_of_false (by simp) (fun hx => hx.1 h1'),
      iff_of_false (by simp) (fun hx => hx.1 h1'),
      by simp⟩
  · have h1' : ¬(h = [] ∨ h.getD 0 0 ≠ 64) := by
      simp only [← hlen]
      exact h1
    by_cases h2 : h.getLast? = some 10
    · cases hc : memrchr 58 h with
      | none =>
        have hc' : ∀ k < h.length, h.getD k 0 ≠ 58 :=
          (memrchr_none_iff 58 h).mp hc
        rw [rewrite_err_colon h h1 h2 hc]
        refine ⟨iff_of_false (by simp) h1',
          iff_of_false (by simp) (fun hx => hx.2 h2),
          iff_of_true rfl ⟨h1', h2, hc'⟩, ?_, ?_, by simp⟩
        · refine iff_of_false (by simp) ?_
          rintro ⟨-, -, c, ⟨hclen, hc58, -⟩, -⟩
          exact hc' c hclen hc58
        · refine iff_of_false (by simp) ?_
          rintro ⟨-, -, c, ⟨hclen, hc58, -⟩, -⟩
          exact hc' c hclen hc58
      | some c =>
        obtain ⟨hc1, hc2, hc3⟩ := (memrchr_some_iff 58 h c).mp hc
        have hlast : isLastColon h c := ⟨hc1, hc2, hc3⟩
        cases hr : memchr 43 (h.drop (c + 1)) with
        | none =>
          have hr' : ∀ k < (h.drop (c + 1)).length,
              (h.drop (c + 1)).getD k 0 ≠ 43 := (memchr_none_iff 43 _).mp hr
          have hno43 : ∀ k < h.length, c < k → h.getD k 0 ≠ 43 := by
            intro k hk hck
            have := hr' (k - (c + 1)) (by simp [List.length_drop]; omega)
            rw [getD_drop] at this
            have harith : c + 1 + (k - (c + 1)) = k := by omega
            rwa [harith] at this
          rw [rewrite_err_plus h c h1 h2 hc hr]
          refine ⟨iff_of_false (by simp) h1',
            iff_of_false (by simp) (fun hx => hx.2 h2), ?_,
            iff_of_true rfl ⟨h1', h2, c, hlast, hno43⟩, ?_, by simp⟩
          · refine iff_of_false (by simp) ?_
            rintro ⟨-, -, hall⟩
            exact hall c hc1 hc2
          · refine iff_of_false (by simp) ?_
            rintro ⟨-, -, c', hlast', k, hk, hck, h43⟩
            obtain rfl : c = c' := isLastColon_unique h c c' hlast hlast'
            exact hno43 k hk hck h43
        | some r =>
          obtain ⟨hr1, hr2, hr3⟩ := (memchr_some_iff 43 _ r).mp hr
          have hp43 : h.getD (c + 1 + r) 0 = 43 := by
            rw [getD_drop] at hr2
            exact hr2
          have hplen : c + 1 + r < h.length := by
            rw [List.length_drop] at hr1
            omega
          rw [rewrite_unfold_ok h c r h1 h2 hc hr]
          refine ⟨iff_of_false (by simp) h1',
            iff_of_false (by simp) (fun hx => hx.2 h2), ?_, ?_,
            iff_of_true rfl ⟨h1', h2, c, hlast, c + 1 + r, hplen,
              by omega, hp43⟩, by simp⟩
          · refine iff_of_false (by simp) ?_
            rintro ⟨-, -, hall⟩
            exact hall c hc1 hc2
          · refine iff_of_false (by simp) ?_
            rintro ⟨-, -, c', hlast', hno43⟩
            obtain rfl : c = c' := isLastColon_unique h c c' hlast hlast'
            exact hno43 (c + 1 + r) hplen (by omega) hp43
    · rw [rewrite_err_terminator h h1 h2]
      exact ⟨iff_of_false (by simp) h1',
        iff_of_true rfl ⟨h1', h2⟩,
        iff_of_false (by simp) (fun hx => h2 hx.2.1),
        iff_of_false (by simp) (fun hx => h2 hx.2.1),
        iff_of_false (by simp) (fun hx => h2 hx.2.1),
        by simp⟩

theorem fieldStart_facts (h : List Nat) (c r : Nat)
    (h2 : h.getLast? = some 10) (hc : memrchr 58 h = some c)
    (hr : memchr 43 (h.drop (c + 1)) = some r) :
    c < h.length ∧ h.getD c 0 = 58 ∧ fieldStart h = c + 1 + r + 1 ∧
      c + 1 + r < h.length ∧ h.getD (c + 1 + r) 0 = 43 ∧
      fieldStart h ≤ h.length - 1 := by
  obtain ⟨hc1, hc2, -⟩ := (memrchr_some_iff 58 h c).mp hc
  obtain ⟨hr1, hr2, -⟩ := (memchr_some_iff 43 _ r).mp hr
  rw [List.length_drop] at hr1
  rw [getD_drop] at hr2
  have hp : c + 1 + r < h.length := by omega
  have h10 : h.getD (h.length - 1) 0 = 10 := getLast?_getD h 10 h2
  have hpne : c + 1 + r ≠ h.length - 1 := by
    intro he
    rw [he, h10] at hr2
    cases hr2
  have hfs := fieldStart_eq h c r hc hr
  exact ⟨hc1, hc2, hfs, hp, hr2, by omega⟩

theorem rewrite_ok_splice (h : List Nat)
    (hok : (rewrite_header_i5 h).1 = Except.ok ()) :
    (rewrite_header_i5 h).2 =
      h.take (fieldStart h) ++
        reverse_complement_in_place
          ((h.drop (fieldStart h)).take (h.length - 1 - fieldStart h)) ++
        h.drop (h.length - 1) := by
  obtain ⟨c, r, h1, h2, hc, hr⟩ := rewrite_ok_conditions h hok
  rw [rewrite_unfold_ok h c r h1 h2 hc hr, fieldStart_eq h c r hc hr]

theorem rewrite_ok_bounds (h : List Nat)
    (hok : (rewrite_header_i5 h).1 = Except.ok ()) :
    0 < fieldStart h ∧ fieldStart h ≤ h.length - 1 ∧ 1 ≤ h.length := by
  obtain ⟨c, r, h1, h2, hc, hr⟩ := rewrite_ok_conditions h hok
  obtain ⟨-, -, hfs, -, -, hbound⟩ := fieldStart_facts h c r h2 hc hr
  have hlen : h.length ≠ 0 := fun he => h1 (Or.inl he)
  exact ⟨by omega, hbound, by omega⟩

theorem rewrite_ok_length (h : List Nat)
    (hok : (rewrite_header_i5 h).1 = Except.ok ()) :
    (rewrite_header_i5 h).2.length = h.length := by
  obtain ⟨-, hbound, hone⟩ := rewrite_ok_bounds h hok
  rw [rewrite_ok_splice h hok]
  simp only [List.length_append, List.length_take, List.length_drop,
    rc_length]
  omega

theorem rewrite_ok_getD (h : List Nat)
    (hok : (rewrite_header_i5 h).1 = Except.ok ()) (k : Nat)
    (hk : k < h.length) :
    (rewrite_header_i5 h).2.getD k 0 =
      if k < fieldStart h ∨ h.length - 1 ≤ k then h.getD k 0
      else complement_base (h.getD (fieldStart h + (h.length - 2 - k)) 0) := by
  obtain ⟨hpos, hbound, hone⟩ := rewrite_ok_bounds h hok
  rw [rewrite_ok_splice h hok]
  set fs := fieldStart h with hfs
  have hlenA : (h.take fs).length = fs := by
    simp only [List.length_take]
    omega
  have hlenB : (reverse_complement_in_place
      ((h.drop fs).take (h.length - 1 - fs))).length = h.length - 1 - fs := by
    rw [rc_length]
    simp only [List.length_take, List.length_drop]
    omega
  rw [List.append_assoc]
  by_cases hkfs : k < fs
  · rw [if_pos (Or.inl hkfs), getD_append_left _ _ _ (by omega),
      getD_take _ _ _ hkfs]
  · rw [getD_append_right _ _ _ (by omega), hlenA]
    by_cases hklast : h.length - 1 ≤ k
    · have hkeq : k = h.length - 1 := by omega
      rw [if_pos (Or.inr hklast),
        getD_append_right _ _ _ (by omega), hlenB]
      rw [getD_drop]
      congr 1
      omega
    · rw [if_neg (by omega), getD_append_left _ _ _ (by omega)]
      have hkfs' : k - fs < h.length - 1 - fs := by omega
      have hflen : ((h.drop fs).take (h.length - 1 - fs)).length
          = h.length - 1 - fs := by
        simp only [List.length_take, List.length_drop]
        omega
      rw [rc_getD _ _ (by rw [hflen]; omega), hflen]
      rw [getD_take _ _ _ (by omega), getD_drop]
      congr 2
      omega

/-- C10: `rewrite_header_i5` never indexes out of bounds: whenever the
mutation step is reached, the field's start index is at most
`length - 1` (the index of the final newline), so the slice taken — and
with it every index the two-pointer loop touches — is in bounds, and the
rewritten buffer has exactly the original length. -/
theorem rewrite_header_i5_in_bounds (h : List Nat)
    (hok : (rewrite_header_i5 h).1 = Except.ok ()) :
    0 < fieldStart h ∧ fieldStart h ≤ h.length - 1 ∧
      h.length - 1 < h.length ∧
      (rewrite_header_i5 h).2.length = h.length := by
  obtain ⟨hpos, hbound, hone⟩ := rewrite_ok_bounds h hok
  exact ⟨hpos, hbound, by omega, rewrite_ok_length h hok⟩

theorem rewrite_header_i5_in_bounds_witness :
    0 < fieldStart [64, 58, 43, 10] ∧
      fieldStart [64, 58, 43, 10] ≤ 3 ∧ (3 : Nat) < 4 ∧
      (rewrite_header_i5 [64, 58, 43, 10]).2.length = 4 := by
  have h := rewrite_header_i5_in_bounds [64, 58, 43, 10] (by rfl)
  exact h

/-- C2: for every buffer starting with `@`, ending with a newline,
containing a `:`, and containing a `+` after the last `:`,
`rewrite_header_i5` succeeds and applies the reverse-complement transform
to exactly the byte range strictly between the first `+` after the last
`:` and the final newline (possibly empty); `:` bytes earlier in the line
play no part in the choice. -/
theorem rewrite_header_i5_locates_field (h : List Nat) (c : Nat)
    (hne : h ≠ []) (hat : h.getD 0 0 = 64) (hnl : h.getLast? = some 10)
    (hc : isLastColon h c)
    (hplus : ∃ k, k < h.length ∧ c < k ∧ h.getD k 0 = 43) :
    ∃ p, c < p ∧ p < h.length ∧ h.getD p 0 = 43 ∧
      (∀ k, c < k → k < p → h.getD k 0 ≠ 43) ∧
      rewrite_header_i5 h = (Except.ok (),
        h.take (p + 1) ++
          reverse_complement_in_place
            ((h.drop (p + 1)).take (h.length - 1 - (p + 1))) ++
          h.drop (h.length - 1)) := by
  have hmem : memrchr 58 h = some c := by
    rw [memrchr_some_iff]
    exact hc
  have h1 : ¬(h.length = 0 ∨ h.getD 0 0 ≠ 64) := by
    rintro (hzero | hat')
    · exact hne (List.length_eq_zero.mp hzero)
    · exact hat' hat
  obtain ⟨k0, hk0len, hck0, h43k0⟩ := hplus
  cases hr : memchr 43 (h.drop (c + 1)) with
  | none =>
    exfalso
    have hr' := (memchr_none_iff 43 _).mp hr
    have := hr' (k0 - (c + 1)) (by rw [List.length_drop]; omega)
    rw [getD_drop] at this
    have harith : c + 1 + (k0 - (c + 1)) = k0 := by omega
    rw [harith] at this
    exact this h43k0
  | some r =>
    obtain ⟨hr1, hr2, hr3⟩ := (memchr_some_iff 43 _ r).mp hr
    rw [List.length_drop] at hr1
    rw [getD_drop] at hr2
    refine ⟨c + 1 + r, by omega, by omega, hr2, ?_, ?_⟩
    · intro k hck hkp
      have := hr3 (k - (c + 1)) (by omega)
      rw [getD_drop] at this
      have harith : c + 1 + (k - (c + 1)) = k := by omega
      rwa [harith] at this
    · have := rewrite_unfold_ok h c r h1 hnl hmem hr
      convert this using 5 <;> omega

theorem rewrite_header_i5_locates_field_witness :
    ∃ p, 9 < p ∧
      p < ([64, 114, 49, 32, 49, 58, 78, 58, 48, 58, 65, 65, 65, 65, 43,
        65, 67, 10] : List Nat).length ∧
      ([64, 114, 49, 32, 49, 58, 78, 58, 48, 58, 65, 65, 65, 65, 43, 65,
        67, 10] : List Nat).getD p 0 = 43 ∧
      (∀ k, 9 < k → k < p →
        ([64, 114, 49, 32, 49, 58, 78, 58, 48, 58, 65, 65, 65, 65, 43, 65,
          67, 10] : List Nat).getD k 0 ≠ 43) ∧
      rewrite_header_i5 [64, 114, 49, 32, 49, 58, 78, 58, 48, 58, 65, 65,
        65, 65, 43, 65, 67, 10] = (Except.ok (),
        ([64, 114, 49, 32, 49, 58, 78, 58, 48, 58, 65, 65, 65, 65, 43, 65,
          67, 10] : List Nat).take (p + 1) ++
          reverse_complement_in_place
            ((([64, 114, 49, 32, 49, 58, 78, 58, 48, 58, 65, 65, 65, 65,
              43, 65, 67, 10] : List Nat).drop (p + 1)).take
              (([64, 114, 49, 32, 49, 58, 78, 58, 48, 58, 65, 65, 65, 65,
                43, 65, 67, 10] : List Nat).length - 1 - (p + 1))) ++
          ([64, 114, 49, 32, 49, 58, 78, 58, 48, 58, 65, 65, 65, 65, 43,
            65, 67, 10] : List Nat).drop
            (([64, 114, 49, 32, 49, 58, 78, 58, 48, 58, 65, 65, 65, 65,
              43, 65, 67, 10] : List Nat).length - 1)) :=
  rewrite_header_i5_locates_field
    [64, 114, 49, 32, 49, 58, 78, 58, 48, 58, 65, 65, 65, 65, 43, 65, 67,
      10] 9 (by decide) (by decide) (by decide) (by decide) (by decide)

/-- C1: whenever `rewrite_header_i5` succeeds on a header whose located
barcode field contains neither the `:` nor the `+` delimiter byte, applying
it a second time succeeds and returns a buffer byte-identical to the
original header. -/
theorem rewrite_header_i5_involution (h : List Nat)
    (hok : (rewrite_header_i5 h).1 = Except.ok ())
    (hfield : ∀ k < h.length - 1, fieldStart h ≤ k →
      h.getD k 0 ≠ 58 ∧ h.getD k 0 ≠ 43) :
    rewrite_header_i5 (rewrite_header_i5 h).2 = (Except.ok (), h) := by
  obtain ⟨c, r, h1, h2, hc, hr⟩ := rewrite_ok_conditions h hok
  obtain ⟨hc1, hc2, hfs, hp, hp43, hbound⟩ := fieldStart_facts h c r h2 hc hr
  obtain ⟨-, -, hc3⟩ := (memrchr_some_iff 58 h c).mp hc
  obtain ⟨-, -, hr3⟩ := (memchr_some_iff 43 _ r).mp hr
  obtain ⟨hpos, -, hone⟩ := rewrite_ok_bounds h hok
  have hgetD := rewrite_ok_getD h hok
  have hlen' : (rewrite_header_i5 h).2.length = h.length :=
    rewrite_ok_length h hok
  have hat : h.getD 0 0 = 64 := by
    rcases not_or.mp h1 with ⟨-, hx⟩
    exact not_not.mp hx
  have h10 : h.getD (h.length - 1) 0 = 10 := getLast?_getD h 10 h2
  set h' := (rewrite_header_i5 h).2 with hh'
  -- the rewritten header parses exactly like the original
  have hat' : h'.getD 0 0 = 64 := by
    rw [hgetD 0 (by omega), if_pos (Or.inl (by omega))]
    exact hat
  have h10' : h'.getD (h.length - 1) 0 = 10 := by
    rw [hgetD (h.length - 1) (by omega), if_pos (Or.inr le_rfl)]
    exact h10
  have hne' : h' ≠ [] := by
    rw [← List.length_pos, hlen']
    omega
  have hnl' : h'.getLast? = some 10 := by
    apply getD_getLast? h' hne'
    rw [hlen']
    exact h10'
  have h1' : ¬(h'.length = 0 ∨ h'.getD 0 0 ≠ 64) := by
    rw [hlen', hat']
    push_neg
    exact ⟨by omega, rfl⟩
  have hmem' : memrchr 58 h' = some c := by
    rw [memrchr_some_iff]
    refine ⟨by omega, ?_, ?_⟩
    · rw [hgetD c (by omega), if_pos (Or.inl (by omega))]
      exact hc2
    · intro k hk hck
      rw [hlen'] at hk
      rw [hgetD k hk]
      by_cases hcase : k < fieldStart h ∨ h.length - 1 ≤ k
      · rw [if_pos hcase]
        rcases hcase with hlt | hge
        · exact hc3 k hk hck
        · have : k = h.length - 1 := by omega
          rw [this, h10]
          omega
      · rw [if_neg hcase]
        push_neg at hcase
        have hm1 : fieldStart h ≤ fieldStart h + (h.length - 2 - k) := by
          omega
        have hm2 : fieldStart h + (h.length - 2 - k) < h.length - 1 := by
          omega
        have hne58 : h.getD (fieldStart h + (h.length - 2 - k)) 0 ≠ 58 :=
          (hfield _ hm2 hm1).1
        intro habs
        exact hne58 ((complement_base_eq_iff _ 58 (by decide)).mp habs)
  have hmem43' : memchr 43 (h'.drop (c + 1)) = some r := by
    rw [memchr_some_iff]
    refine ⟨?_, ?_, ?_⟩
    · rw [List.length_drop, hlen']
      omega
    · rw [getD_drop, hgetD (c + 1 + r) (by omega),
        if_pos (Or.inl (by omega))]
      exact hp43
    · intro m hm
      rw [getD_drop, hgetD (c + 1 + m) (by omega),
        if_pos (Or.inl (by omega))]
      have := hr3 m hm
      rw [getD_drop] at this
      exact this
  have hstep := rewrite_unfold_ok h' c r h1' hnl' hmem' hmem43'
  -- identify the pieces of the second rewrite with those of the first
  have hsplice : h' = h.take (fieldStart h) ++
      reverse_complement_in_place
        ((h.drop (fieldStart h)).take (h.length - 1 - fieldStart h)) ++
      h.drop (h.length - 1) := rewrite_ok_splice h hok
  have hlenA : (h.take (fieldStart h)).length = fieldStart h := by
    simp only [List.length_take]
    omega
  have hlenM : (reverse_complement_in_place
      ((h.drop (fieldStart h)).take (h.length - 1 - fieldStart h))).length
      = h.length - 1 - fieldStart h := by
    rw [rc_length]
    simp only [List.length_take, List.length_drop]
    omega
  have htake' : h'.take (c + 1 + r + 1) = h.take (fieldStart h) := by
    rw [hsplice, List.append_assoc, ← hfs]
    exact List.take_left' hlenA
  have hdrop' : h'.drop (c + 1 + r + 1) =
      reverse_complement_in_place
        ((h.drop (fieldStart h)).take (h.length - 1 - fieldStart h)) ++
      h.drop (h.length - 1) := by
    rw [hsplice, List.append_assoc, ← hfs]
    exact List.drop_left' hlenA
  have hfield' : (h'.drop (c + 1 + r + 1)).take
      (h'.length - 1 - (c + 1 + r + 1)) =
      reverse_complement_in_place
        ((h.drop (fieldStart h)).take (h.length - 1 - fieldStart h)) := by
    rw [hdrop', hlen', ← hfs]
    exact List.take_left' hlenM
  have hlast' : h'.drop (h'.length - 1) = h.drop (h.length - 1) := by
    rw [hlen', hsplice]
    have hlenAM : (h.take (fieldStart h) ++
        reverse_complement_in_place
          ((h.drop (fieldStart h)).take
            (h.length - 1 - fieldStart h))).length = h.length - 1 := by
      rw [List.length_append, hlenA, hlenM]
      omega
    exact List.drop_left' hlenAM
  rw [hstep, htake', hfield', hlast', rc_involution]
  have hmid : (h.drop (fieldStart h)).take (h.length - 1 - fieldStart h) ++
      h.drop (h.length - 1) = h.drop (fieldStart h) := by
    have hdd : (h.drop (fieldStart h)).drop (h.length - 1 - fieldStart h)
        = h.drop (h.length - 1) := by
      rw [List.drop_drop]
      congr 1
      omega
    rw [← hdd, List.take_append_drop]
  rw [List.append_assoc, hmid, List.take_append_drop]

theorem rewrite_header_i5_involution_witness :
    rewrite_header_i5 (rewrite_header_i5 [64, 114, 49, 32, 49, 58, 78, 58,
      48, 58, 65, 65, 65, 65, 43, 65, 67, 10]).2 =
      (Except.ok (), [64, 114, 49, 32, 49, 58, 78, 58, 48, 58, 65, 65, 65,
        65, 43, 65, 67, 10]) :=
  rewrite_header_i5_involution
    [64, 114, 49, 32, 49, 58, 78, 58, 48, 58, 65, 65, 65, 65, 43, 65, 67,
      10] (by rfl) (by decide)

theorem takeLine_append_some (c s : List Nat) (pos : Nat)
    (hm : memchr 10 c = some pos) :
    takeLine (c ++ s) = c.take (pos + 1) ∧
      dropLine (c ++ s) = c.drop (pos + 1) ++ s := by
  induction c generalizing pos with
  | nil => cases hm
  | cons x xs ih =>
    simp only [memchr] at hm
    by_cases hx : x = 10
    · rw [if_pos hx] at hm
      obtain rfl : (0 : Nat) = pos := by simpa using hm
      subst hx
      simp [takeLine, dropLine]
    · rw [if_neg hx] at hm
      obtain ⟨pos', hpos', rfl⟩ : ∃ p, memchr 10 xs = some p ∧ p + 1 = pos := by
        cases hmx : memchr 10 xs with
        | none => rw [hmx] at hm; cases hm
        | some p =>
          rw [hmx] at hm
          exact ⟨p, rfl, by simpa using hm⟩
      obtain ⟨ht, hd⟩ := ih pos' hpos'
      constructor
      · simp only [List.cons_append, takeLine, if_neg hx, List.take_succ_cons,
          List.append_eq]
        rw [ht]
      · simp only [List.cons_append, dropLine, if_neg hx, List.drop_succ_cons,
          List.append_eq]
        rw [hd]

theorem takeLine_append_none (c s : List Nat) (hm : memchr 10 c = none) :
    takeLine (c ++ s) = c ++ takeLine s ∧ dropLine (c ++ s) = dropLine s := by
  induction c with
  | nil => simp
  | cons x xs ih =>
    simp only [memchr] at hm
    by_cases hx : x = 10
    · rw [if_pos hx] at hm
      cases hm
    · rw [if_neg hx] at hm
      have hmx : memchr 10 xs = none := by
        cases hmx : memchr 10 xs with
        | none => rfl
        | some p => rw [hmx] at hm; cases hm
      obtain ⟨ht, hd⟩ := ih hmx
      constructor
      · simp only [List.cons_append, takeLine, if_neg hx, List.append_eq]
        rw [ht]
      · simp only [List.cons_append, dropLine, if_neg hx, List.append_eq]
        rw [hd]

theorem takeLine_eq_nil_iff (l : List Nat) : takeLine l = [] ↔ l = [] := by
  cases l with
  | nil => simp [takeLine]
  | cons x xs =>
    simp only [takeLine]
    by_cases hx : x = 10
    · simp [hx]
    · simp [hx]

theorem eq_nil_of_flatten_nil (chunks : List (List Nat))
    (hne : ∀ c ∈ chunks, c ≠ []) (h : chunks.flatten = []) : chunks = [] := by
  cases chunks with
  | nil => rfl
  | cons c rest =>
    exfalso
    rw [List.flatten_cons] at h
    obtain ⟨hc, -⟩ := List.append_eq_nil.mp h
    exact hne c (List.mem_cons_self c rest) hc

theorem readLineLoop_spec (chunks : List (List Nat)) (acc : List Nat)
    (t : Nat) (hne : ∀ c ∈ chunks, c ≠ []) :
    (readLineLoop chunks acc t).1 = acc ++ takeLine chunks.flatten ∧
    (readLineLoop chunks acc t).2.1 = t + (takeLine chunks.flatten).length ∧
    (readLineLoop chunks acc t).2.2.flatten = dropLine chunks.flatten ∧
    ∀ c ∈ (readLineLoop chunks acc t).2.2, c ≠ [] := by
  induction chunks generalizing acc t with
  | nil =>
    simp [readLineLoop, takeLine, dropLine]
  | cons c rest ih =>
    have hc : c ≠ [] := hne c (List.mem_cons_self c rest)
    have hcf : c.isEmpty = false := by simpa using hc
    have hner : ∀ x ∈ rest, x ≠ [] := fun x hx =>
      hne x (List.mem_cons_of_mem c hx)
    cases hm : memchr 10 c with
    | some pos =>
      obtain ⟨hpos1, -, -⟩ := (memchr_some_iff 10 c pos).mp hm
      obtain ⟨ht, hd⟩ := takeLine_append_some c rest.flatten pos hm
      have htlen : (c.take (pos + 1)).length = pos + 1 := by
        rw [List.length_take]
        omega
      by_cases hrem : (c.drop (pos + 1)).isEmpty
      · have h1 : readLineLoop (c :: rest) acc t =
            (acc ++ c.take (pos + 1), t + (pos + 1), rest) := by
          simp [readLineLoop, hcf, hm, hrem]
        rw [h1]
        have hdrop : c.drop (pos + 1) = [] := List.isEmpty_iff.mp hrem
        refine ⟨by rw [List.flatten_cons, ht], ?_, ?_, hner⟩
        · rw [List.flatten_cons, ht, htlen]
        · rw [List.flatten_cons, hd, hdrop, List.nil_append]
      · have h1 : readLineLoop (c :: rest) acc t =
            (acc ++ c.take (pos + 1), t + (pos + 1),
              c.drop (pos + 1) :: rest) := by
          simp [readLineLoop, hcf, hm, hrem]
        rw [h1]
        refine ⟨by rw [List.flatten_cons, ht], ?_, ?_, ?_⟩
        · rw [List.flatten_cons, ht, htlen]
        · rw [List.flatten_cons, List.flatten_cons, hd]
        · intro x hx
          rcases List.mem_cons.mp hx with rfl | hx'
          · simpa using hrem
          · exact hner x hx'
    | none =>
      have h1 : readLineLoop (c :: rest) acc t =
          readLineLoop rest (acc ++ c) (t + c.length) := by
        simp [readLineLoop, hcf, hm]
      obtain ⟨ht, hd⟩ := takeLine_append_none c rest.flatten hm
      obtain ⟨ih1, ih2, ih3, ih4⟩ := ih (acc ++ c) (t + c.length) hner
      rw [h1]
      refine ⟨?_, ?_, ?_, ih4⟩
      · rw [ih1, List.flatten_cons, ht, List.append_assoc]
      · rw [ih2, List.flatten_cons, ht, List.length_append]
        omega
      · rw [ih3, List.flatten_cons, hd]

/-- C8: `read_line` clears the reuse buffer, then appends bytes from the
stream up to and including the first newline (the whole remaining stream
when no newline arrives before end of stream); its return value is the
number of bytes appended, and it returns `0` exactly at end of stream with
no data.  `hne` states that the underlying stream hands out only nonempty
chunks before end of stream. -/
theorem read_line_contract (chunks : List (List Nat)) (line0 : List Nat)
    (hne : ∀ c ∈ chunks, c ≠ []) :
    read_line chunks line0 = read_line chunks [] ∧
    (read_line chunks line0).1 = takeLine chunks.flatten ∧
    (read_line chunks line0).2.1 = (read_line chunks line0).1.length ∧
    (read_line chunks line0).2.2.flatten = dropLine chunks.flatten ∧
    ((read_line chunks line0).2.1 = 0 ↔ chunks.flatten = []) := by
  obtain ⟨h1, h2, h3, -⟩ := readLineLoop_spec chunks [] 0 hne
  have hrl : read_line chunks line0 = readLineLoop chunks [] 0 := rfl
  refine ⟨rfl, ?_, ?_, ?_, ?_⟩
  · rw [hrl, h1, List.nil_append]
  · rw [hrl, h2, h1, List.nil_append]
    omega
  · rw [hrl, h3]
  · rw [hrl, h2]
    simp only [Nat.zero_add]
    rw [List.length_eq_zero, takeLine_eq_nil_iff]

theorem read_line_contract_witness :
    (read_line [[72, 10, 66], [67]] [99]).1 = [72, 10] := by
  have h := (read_line_contract [[72, 10, 66], [67]] [99] (by decide)).2.1
  exact h

theorem mainLoop_eq_done (chunks : List (List Nat))
    (h : (read_line chunks []).1 = []) :
    mainLoop chunks = ([], Except.ok ()) := by
  unfold mainLoop
  rw [dif_pos (by simpa using h)]

theorem mainLoop_eq_err (chunks : List (List Nat)) (e : IOErr)
    (st : List Nat) (hne : (read_line chunks []).1 ≠ [])
    (herr : rewrite_header_i5 (read_line chunks []).1 =
      (Except.error e, st)) :
    mainLoop chunks = ([], Except.error e) := by
  unfold mainLoop
  rw [dif_neg (by simpa using hne)]
  simp only [herr]

theorem mainLoop_eq_trunc1 (chunks : List (List Nat)) (l1 : List Nat)
    (hne : (read_line chunks []).1 ≠ [])
    (hrw : rewrite_header_i5 (read_line chunks []).1 = (Except.ok (), l1))
    (h1 : (read_line (read_line chunks []).2.2 []).1 = []) :
    mainLoop chunks = (l1, Except.error IOErr.truncatedRecord) := by
  unfold mainLoop
  rw [dif_neg (by simpa using hne)]
  simp only [hrw]
  rw [if_pos (by simpa using h1)]

theorem mainLoop_eq_trunc2 (chunks : List (List Nat)) (l1 : List Nat)
    (hne : (read_line chunks []).1 ≠ [])
    (hrw : rewrite_header_i5 (read_line chunks []).1 = (Except.ok (), l1))
    (h1 : (read_line (read_line chunks []).2.2 []).1 ≠ [])
    (h2 : (read_line (read_line (read_line chunks []).2.2 []).2.2 []).1
      = []) :
    mainLoop chunks = (l1 ++ (read_line (read_line chunks []).2.2 []).1,
      Except.error IOErr.truncatedRecord) := by
  unfold mainLoop
  rw [dif_neg (by simpa using hne)]
  simp only [hrw]
  rw [if_neg (by simpa using h1), if_pos (by simpa using h2)]

theorem mainLoop_eq_trunc3 (chunks : List (List Nat)) (l1 : List Nat)
    (hne : (read_line chunks []).1 ≠ [])
    (hrw : rewrite_header_i5 (read_line chunks []).1 = (Except.ok (), l1))
    (h1 : (read_line (read_line chunks []).2.2 []).1 ≠ [])
    (h2 : (read_line (read_line (read_line chunks []).2.2 []).2.2 []).1
      ≠ [])
    (h3 : (read_line (read_line (read_line (read_line chunks []).2.2
      []).2.2 []).2.2 []).1 = []) :
    mainLoop chunks = (l1 ++ (read_line (read_line chunks []).2.2 []).1 ++
      (read_line (read_line (read_line chunks []).2.2 []).2.2 []).1,
      Except.error IOErr.truncatedRecord) := by
  unfold mainLoop
  rw [dif_neg (by simpa using hne)]
  simp only [hrw]
  rw [if_neg (by simpa using h1), if_neg (by simpa using h2),
    if_pos (by simpa using h3)]

theorem mainLoop_eq_step (chunks : List (List Nat)) (l1 : List Nat)
    (hne : (read_line chunks []).1 ≠ [])
    (hrw : rewrite_header_i5 (read_line chunks []).1 = (Except.ok (), l1))
    (h1 : (read_line (read_line chunks []).2.2 []).1 ≠ [])
    (h2 : (read_line (read_line (read_line chunks []).2.2 []).2.2 []).1
      ≠ [])
    (h3 : (read_line (read_line (read_line (read_line chunks []).2.2
      []).2.2 []).2.2 []).1 ≠ []) :
    mainLoop chunks = (l1 ++ (read_line (read_line chunks []).2.2 []).1 ++
      (read_line (read_line (read_line chunks []).2.2 []).2.2 []).1 ++
      (read_line (read_line (read_line (read_line chunks []).2.2 []).2.2
        []).2.2 []).1 ++
      (mainLoop (read_line (read_line (read_line (read_line chunks
        []).2.2 []).2.2 []).2.2 []).2.2).1,
      (mainLoop (read_line (read_line (read_line (read_line chunks
        []).2.2 []).2.2 []).2.2 []).2.2).2) := by
  conv_lhs => unfold mainLoop
  rw [dif_neg (by simpa using hne)]
  simp only [hrw]
  rw [if_neg (by simpa using h1), if_neg (by simpa using h2),
    if_neg (by simpa using h3)]

theorem cleanEOF_of_mainLoop_ok_aux :
    ∀ n chunks, bytes chunks ≤ n → (mainLoop chunks).2 = Except.ok () →
      CleanEOF chunks := by
  intro n
  induction n with
  | zero =>
    intro chunks hb _
    apply CleanEOF.eof
    have hbyte := read_line_bytes chunks []
    have hz : (read_line chunks []).1.length = 0 := by omega
    exact List.length_eq_zero.mp hz
  | succ n ih =>
    intro chunks hb hok
    by_cases h0 : (read_line chunks []).1 = []
    · exact CleanEOF.eof chunks h0
    · cases hrw : rewrite_header_i5 (read_line chunks []).1 with
      | mk fst snd =>
        cases fst with
        | error e =>
          rw [mainLoop_eq_err chunks e snd h0 hrw] at hok
          simp at hok
        | ok u =>
          cases u
          by_cases h1 : (read_line (read_line chunks []).2.2 []).1 = []
          · rw [mainLoop_eq_trunc1 chunks snd h0 hrw h1] at hok
            simp at hok
          · by_cases h2 : (read_line (read_line (read_line chunks []).2.2
                []).2.2 []).1 = []
            · rw [mainLoop_eq_trunc2 chunks snd h0 hrw h1 h2] at hok
              simp at hok
            · by_cases h3 : (read_line (read_line (read_line (read_line
                  chunks []).2.2 []).2.2 []).2.2 []).1 = []
              · rw [mainLoop_eq_trunc3 chunks snd h0 hrw h1 h2 h3] at hok
                simp at hok
              · rw [mainLoop_eq_step chunks snd h0 hrw h1 h2 h3] at hok
                have hok' : (mainLoop (read_line (read_line (read_line
                    (read_line chunks []).2.2 []).2.2 []).2.2 []).2.2).2 =
                    Except.ok () := hok
                have hlt : bytes (read_line chunks []).2.2 < bytes chunks :=
                  read_line_bytes_lt chunks [] h0
                have hle1 := read_line_bytes_le (read_line chunks []).2.2
                  ([] : List Nat)
                have hle2 := read_line_bytes_le (read_line (read_line
                  chunks []).2.2 []).2.2 ([] : List Nat)
                have hle3 := read_line_bytes_le (read_line (read_line
                  (read_line chunks []).2.2 []).2.2 []).2.2 ([] : List Nat)
                refine CleanEOF.step chunks h0 (by rw [hrw]) h1 h2 h3 ?_
                exact ih _ (by omega) hok'

theorem mainLoop_ok_of_cleanEOF (chunks : List (List Nat))
    (h : CleanEOF chunks) : (mainLoop chunks).2 = Except.ok () := by
  induction h with
  | eof ch h0 => rw [mainLoop_eq_done ch h0]
  | step ch h0 hok h1 h2 h3 hrec ih =>
    have hrw : rewrite_header_i5 (read_line ch []).1 =
        (Except.ok (), (rewrite_header_i5 (read_line ch []).1).2) := by
      rw [← hok]
    rw [mainLoop_eq_step ch _ h0 hrw h1 h2 h3]
    exact ih

/-- C7: the main loop terminates successfully exactly when a zero-byte read
occurs in header position (end of input at a 4-line record boundary); a
zero-byte read while expecting one of the three payload lines of a record
yields the truncated-record error, with the record's already-read lines —
the rewritten header first — already written to the output buffer. -/
theorem mainLoop_termination_spec (chunks : List (List Nat)) :
    ((mainLoop chunks).2 = Except.ok () ↔ CleanEOF chunks) ∧
    ((read_line chunks []).1 = [] → mainLoop chunks = ([], Except.ok ())) ∧
    (∀ l1, (read_line chunks []).1 ≠ [] →
      rewrite_header_i5 (read_line chunks []).1 = (Except.ok (), l1) →
      ((read_line (read_line chunks []).2.2 []).1 = [] →
        mainLoop chunks = (l1, Except.error IOErr.truncatedRecord)) ∧
      ((read_line (read_line chunks []).2.2 []).1 ≠ [] →
        (read_line (read_line (read_line chunks []).2.2 []).2.2 []).1
          = [] →
        mainLoop chunks = (l1 ++ (read_line (read_line chunks []).2.2
          []).1, Except.error IOErr.truncatedRecord)) ∧
      ((read_line (read_line chunks []).2.2 []).1 ≠ [] →
        (read_line (read_line (read_line chunks []).2.2 []).2.2 []).1
          ≠ [] →
        (read_line (read_line (read_line (read_line chunks []).2.2
          []).2.2 []).2.2 []).1 = [] →
        mainLoop chunks = (l1 ++ (read_line (read_line chunks []).2.2
          []).1 ++ (read_line (read_line (read_line chunks []).2.2 []).2.2
          []).1, Except.error IOErr.truncatedRecord))) := by
  refine ⟨⟨fun hok => cleanEOF_of_mainLoop_ok_aux (bytes chunks) chunks
      le_rfl hok, mainLoop_ok_of_cleanEOF chunks⟩,
    mainLoop_eq_done chunks,
    fun l1 hne hrw => ⟨mainLoop_eq_trunc1 chunks l1 hne hrw,
      mainLoop_eq_trunc2 chunks l1 hne hrw,
      mainLoop_eq_trunc3 chunks l1 hne hrw⟩⟩

theorem mainLoop_termination_spec_witness :
    mainLoop [[64, 58, 43, 10, 88, 10]] =
      ([64, 58, 43, 10] ++ [88, 10], Except.error IOErr.truncatedRecord) := by
  have h := (mainLoop_termination_spec [[64, 58, 43, 10, 88, 10]]).2.2
    [64, 58, 43, 10] (by decide) (by rfl)
  exact h.2.1 (by decide) (by rfl)

theorem isLine_memchr (l : List Nat) (hl : isLine l) :
    memchr 10 l = some (l.length - 1) := by
  obtain ⟨hne, hlast, hmid⟩ := hl
  have hpos : 0 < l.length := List.length_pos.mpr hne
  rw [memchr_some_iff]
  exact ⟨by omega, getLast?_getD l 10 hlast, fun k hk => hmid k (by omega)⟩

theorem takeLine_of_isLine (l s : List Nat) (hl : isLine l) :
    takeLine (l ++ s) = l ∧ dropLine (l ++ s) = s := by
  have hm := isLine_memchr l hl
  obtain ⟨ht, hd⟩ := takeLine_append_some l s (l.length - 1) hm
  have hpos : 0 < l.length := List.length_pos.mpr hl.1
  have harith : l.length - 1 + 1 = l.length := by omega
  rw [harith] at ht hd
  rw [List.take_length] at ht
  rw [List.drop_length] at hd
  exact ⟨ht, by simpa using hd⟩

theorem read_line_parts (chunks : List (List Nat)) (line0 : List Nat)
    (hne : ∀ c ∈ chunks, c ≠ []) :
    (read_line chunks line0).1 = takeLine chunks.flatten ∧
    (read_line chunks line0).2.2.flatten = dropLine chunks.flatten ∧
    ∀ c ∈ (read_line chunks line0).2.2, c ≠ [] := by
  obtain ⟨h1, -, h3, h4⟩ := readLineLoop_spec chunks [] 0 hne
  have hrl : read_line chunks line0 = readLineLoop chunks [] 0 := rfl
  exact ⟨by rw [hrl, h1, List.nil_append], by rw [hrl, h3], by rw [hrl]; exact h4⟩

theorem mainLoop_records
    (records : List (List Nat × List Nat × List Nat × List Nat)) :
    ∀ chunks, (∀ c ∈ chunks, c ≠ []) →
    chunks.flatten = flattenRecords records →
    (∀ rec ∈ records, isLine rec.1 ∧
      (rewrite_header_i5 rec.1).1 = Except.ok () ∧
      isLine rec.2.1 ∧ isLine rec.2.2.1 ∧ isLine rec.2.2.2) →
    mainLoop chunks = (outRecords records, Except.ok ()) := by
  induction records with
  | nil =>
    intro chunks hne hflat _
    have hchunks : chunks = [] :=
      eq_nil_of_flatten_nil chunks hne (by simpa [flattenRecords] using hflat)
    subst hchunks
    have hdone : (read_line ([] : List (List Nat)) []).1 = [] := rfl
    rw [mainLoop_eq_done [] hdone]
    simp [outRecords]
  | cons rec rs ih =>
    intro chunks hne hflat hval
    obtain ⟨hlineH, hokH, hlineP1, hlineP2, hlineP3⟩ :=
      hval rec (List.mem_cons_self rec rs)
    have hflat' : chunks.flatten = rec.1 ++
        (rec.2.1 ++ (rec.2.2.1 ++ (rec.2.2.2 ++ flattenRecords rs))) := by
      rw [hflat]
      simp only [flattenRecords, List.append_assoc]
    obtain ⟨ha1, hb1, hc1⟩ := read_line_parts chunks [] hne
    rw [hflat'] at ha1 hb1
    rw [(takeLine_of_isLine _ _ hlineH).1] at ha1
    rw [(takeLine_of_isLine _ _ hlineH).2] at hb1
    obtain ⟨ha2, hb2, hc2⟩ :=
      read_line_parts (read_line chunks []).2.2 [] hc1
    rw [hb1] at ha2 hb2
    rw [(takeLine_of_isLine _ _ hlineP1).1] at ha2
    rw [(takeLine_of_isLine _ _ hlineP1).2] at hb2
    obtain ⟨ha3, hb3, hc3⟩ :=
      read_line_parts (read_line (read_line chunks []).2.2 []).2.2 [] hc2
    rw [hb2] at ha3 hb3
    rw [(takeLine_of_isLine _ _ hlineP2).1] at ha3
    rw [(takeLine_of_isLine _ _ hlineP2).2] at hb3
    obtain ⟨ha4, hb4, hc4⟩ := read_line_parts
      (read_line (read_line (read_line chunks []).2.2 []).2.2 []).2.2 [] hc3
    rw [hb3] at ha4 hb4
    rw [(takeLine_of_isLine _ _ hlineP3).1] at ha4
    rw [(takeLine_of_isLine _ _ hlineP3).2] at hb4
    have hne0 : (read_line chunks []).1 ≠ [] := by
      rw [ha1]; exact hlineH.1
    have hne1 : (read_line (read_line chunks []).2.2 []).1 ≠ [] := by
      rw [ha2]; exact hlineP1.1
    have hne2 : (read_line (read_line (read_line chunks []).2.2 []).2.2
        []).1 ≠ [] := by
      rw [ha3]; exact hlineP2.1
    have hne3 : (read_line (read_line (read_line (read_line chunks
        []).2.2 []).2.2 []).2.2 []).1 ≠ [] := by
      rw [ha4]; exact hlineP3.1
    have hrw : rewrite_header_i5 (read_line chunks []).1 =
        (Except.ok (), (rewrite_header_i5 rec.1).2) := by
      rw [ha1, ← hokH]
    have hrec : mainLoop (read_line (read_line (read_line (read_line
        chunks []).2.2 []).2.2 []).2.2 []).2.2 =
        (outRecords rs, Except.ok ()) :=
      ih _ hc4 hb4 (fun r hr => hval r (List.mem_cons_of_mem rec hr))
    rw [mainLoop_eq_step chunks _ hne0 hrw hne1 hne2 hne3, ha2, ha3, ha4,
      hrec]
    simp [outRecords]

/-- C9: on an input that is a concatenation of valid 4-line records, the
loop succeeds; records and lines are emitted in input order with payload
lines 2–4 byte-identical to the input, and each output header agrees with
its input header at every position outside the located i5 field. -/
theorem mainLoop_passthrough
    (records : List (List Nat × List Nat × List Nat × List Nat))
    (chunks : List (List Nat)) (hch : ∀ c ∈ chunks, c ≠ [])
    (hflat : chunks.flatten = flattenRecords records)
    (hval : ∀ rec ∈ records, isLine rec.1 ∧
      (rewrite_header_i5 rec.1).1 = Except.ok () ∧
      isLine rec.2.1 ∧ isLine rec.2.2.1 ∧ isLine rec.2.2.2) :
    mainLoop chunks = (outRecords records, Except.ok ()) ∧
    ∀ rec ∈ records,
      (rewrite_header_i5 rec.1).2.length = rec.1.length ∧
      ∀ k < rec.1.length,
        (k < fieldStart rec.1 ∨ rec.1.length - 1 ≤ k) →
        (rewrite_header_i5 rec.1).2.getD k 0 = rec.1.getD k 0 := by
  refine ⟨mainLoop_records records chunks hch hflat hval, ?_⟩
  intro rec hrec
  obtain ⟨-, hok, -, -, -⟩ := hval rec hrec
  refine ⟨rewrite_ok_length rec.1 hok, ?_⟩
  intro k hk hcase
  rw [rewrite_ok_getD rec.1 hok k hk, if_pos hcase]

theorem mainLoop_passthrough_witness :
    mainLoop [[64, 58, 43, 65, 10, 88, 10, 43, 10, 89, 10]] =
      (outRecords [([64, 58, 43, 65, 10], [88, 10], [43, 10], [89, 10])],
        Except.ok ()) :=
  (mainLoop_passthrough
    [([64, 58, 43, 65, 10], [88, 10], [43, 10], [89, 10])]
    [[64, 58, 43, 65, 10, 88, 10, 43, 10, 89, 10]]
    (by decide) (by decide)
    (by
      intro rec hr
      rw [List.mem_singleton] at hr
      subst hr
      exact ⟨by decide, rfl, by decide, by decide, by decide⟩)).1

theorem rewrite_header_i5_error_order_witness :
    (rewrite_header_i5 [64, 114, 49, 32, 10]).1 =
      Except.error IOErr.missingColon := by
  have h := (rewrite_header_i5_error_order [64, 114, 49, 32, 10]).2.2.1
  exact h.mpr ⟨by decide, by decide, by decide⟩
